import Mathlib

/-!
Verification of the `within-ring` traceable ring signature implementation
(`src/pyring/one_time.py`, `src/pyring/serialize.py`) against its specification.

The group-arithmetic layer (`ge.py`, `sc25519.py`) is not part of the sources; its
data model is modelled from the spec: scalars are ℤ/ℓℤ, and the Ed25519 group
(cofactor 8) is represented, up to isomorphism, as ℤ/ℓℤ × ℤ/8ℤ.  Randomness drawn
by the signer is passed as an explicit stream `rand : ℕ → Scalar`, read in the order
the source draws random scalars.  A Python exception is modelled as `none`.
-/

set_option maxRecDepth 8000

namespace Pyring

/-- Modelled from the spec (§3): ℓ, the order of the Ed25519 prime-order subgroup,
`2 ^ 252 + 27742317777372353535851937790883648493` (`sc25519.py` is not in the sources). -/
def L : ℕ := 7237005577332262213973186563042994240857116359379907606001950938285454250989

instance : NeZero L := ⟨by decide⟩

/-- Modelled from the spec (§3, §4.1): `sc25519.Scalar`, an element of ℤ/ℓℤ. -/
abbrev Scalar := ZMod L

/-- Modelled from the spec (§3, §4.2): a point of the Ed25519 group.  The group is
commutative with a prime-order part of order ℓ and an 8-torsion part (cofactor 8);
it is represented, up to isomorphism, as the product ℤ/ℓℤ × ℤ/8ℤ, with point
addition componentwise. -/
abbrev Point := ZMod L × ZMod 8

/-- Abstract byte strings (messages, encodings, hash transcripts). -/
abbrev Bytes := List ℕ

/-- Modelled from the spec (§4.2): `ge.G`, the Ed25519 basepoint, a generator of the
prime-order subgroup. -/
def G : Point := (1, 0)

/-- Modelled from the spec (§4.2): scalar multiplication `a·P`.  The scalar is held
reduced mod ℓ and acts through its numeric value, also on the 8-torsion component. -/
def pmul (a : Scalar) (P : Point) : Point := (a * P.1, (a.val : ZMod 8) * P.2)

/-- Modelled from the spec (§3): the canonical 32-byte compressed point encoding,
abstracted to the pair of coordinates; it is injective, which is all that is used. -/
def pointEncode (P : Point) : Bytes := [P.1.val, P.2.val]

/-- Modelled from the spec (§4.4): `ge.hash_to_scalar`, a deterministic hash of a byte
string interpreted as an integer and reduced mod ℓ; a concrete mixing fold stands in
for the 256-bit hash. -/
def hashToScalar (b : Bytes) : Scalar :=
  ((b.foldl (fun a v => a * 65599 + v + 17) 5 : ℕ) : Scalar)

/-- Modelled from the spec (§4.3): `Point.hash_to_point`, a deterministic map from a
point to a candidate decoded point followed by multiplication by 8 (cofactor
clearing); the digest stands in for the try-and-increment Keccak construction. -/
def hashToPoint (P : Point) : Point :=
  pmul 8 (hashToScalar (pointEncode P) + 3, 1)

/-- `PrivateKey.key_image` (src/pyring/one_time.py, lines 50-51):
`x · hash_to_point(x·G)`. -/
def keyImage (x : Scalar) : Point := pmul x (hashToPoint (pmul x G))

/-- `RingSignature` (src/pyring/one_time.py, lines 60-72): the public keys the message
was signed against, the key image, and the two scalar rings. -/
structure RingSignature where
  public_keys : List Point
  key_image : Point
  c : List Scalar
  r : List Scalar
deriving DecidableEq

/-- `WithinRingSignature` (src/pyring/one_time.py, lines 75-87). -/
structure WithinRingSignature where
  public_keys : List Point
  public_points : List Point
  enc_points : List Point
  c : List Scalar
  r : List Scalar
deriving DecidableEq

/-- `functools.reduce(operator.add, l)` over scalars: the running sum, raising
(`none`) on the empty list exactly as `reduce` does without an initial value. -/
def sumList : List Scalar → Option Scalar
  | [] => none
  | a :: t => some (t.foldl (· + ·) a)

/-- Python `list.insert(n, a)`: inserts at position `n`, appending when `n` exceeds
the length, as Python's clamping insert does. -/
def insertAt (a : Scalar) : ℕ → List Scalar → List Scalar
  | 0, l => a :: l
  | _ + 1, [] => [a]
  | n + 1, b :: l => b :: insertAt a n l

/-- The result of the signing loop of `sign`: the transcript chunks appended to the
buffer, the `c` and `r` lists collected at non-signer positions, and the signer's
saved random scalar `q_s` (`none` when index `s` was never reached). -/
structure SignOut where
  chunks : Bytes
  c : List Scalar
  r : List Scalar
  qs : Option Scalar

/-- The loop of `sign` (src/pyring/one_time.py, lines 118-131), one ring element at a
time: `i` is the ring index, `k` the next position of the randomness stream.  At the
signer index `s` one scalar `q_s = rand k` is drawn; elsewhere `q_i = rand k` and
`w_i = rand (k+1)` are drawn, `w_i` goes to `c`, `q_i` goes to `r`. -/
def signList (rand : ℕ → Scalar) (s : ℕ) (I : Point) : ℕ → ℕ → List Point → SignOut
  | _, _, [] => ⟨[], [], [], none⟩
  | i, k, P :: rest =>
    if i = s then
      ⟨pointEncode (pmul (rand k) G) ++ pointEncode (pmul (rand k) (hashToPoint P)) ++
          (signList rand s I (i + 1) (k + 1) rest).chunks,
        (signList rand s I (i + 1) (k + 1) rest).c,
        (signList rand s I (i + 1) (k + 1) rest).r,
        some (rand k)⟩
    else
      ⟨pointEncode (pmul (rand k) G + pmul (rand (k + 1)) P) ++
          pointEncode (pmul (rand k) (hashToPoint P) + pmul (rand (k + 1)) I) ++
          (signList rand s I (i + 1) (k + 2) rest).chunks,
        rand (k + 1) :: (signList rand s I (i + 1) (k + 2) rest).c,
        rand k :: (signList rand s I (i + 1) (k + 2) rest).r,
        (signList rand s I (i + 1) (k + 2) rest).qs⟩

/-- `sign` (src/pyring/one_time.py, lines 90-137).  `none` models a Python exception:
the empty `functools.reduce` when there is no non-signer position, or the unbound
`q_s` when the signer index is never reached. -/
def signT (m : Bytes) (public_keys : List Point) (x : Scalar) (s : ℕ)
    (rand : ℕ → Scalar) : Option (List Point × Point × List Scalar × List Scalar) :=
  let I := keyImage x
  let o := signList rand s I 0 0 public_keys
  match sumList o.c, o.qs with
  | some tot, some q =>
    let cs := insertAt (hashToScalar (m ++ o.chunks) - tot) s o.c
    match cs.get? s with
    | some cS => some (public_keys, I, cs, insertAt (q - cS * x) s o.r)
    | none => none
  | _, _ => none

/-- `ring_sign` (src/pyring/one_time.py, lines 139-143). -/
def ringSign (m : Bytes) (public_keys : List Point) (x : Scalar) (s : ℕ)
    (rand : ℕ → Scalar) : Option RingSignature :=
  match signT m public_keys x s rand with
  | some (pk, I, c, r) => some ⟨pk, I, c, r⟩
  | none => none

/-- Python `zip` over three lists: truncates to the shortest, as
`zip(public_keys, r, c)` does in `ring_verify`. -/
def zip3 : List Point → List Scalar → List Scalar → List (Point × Scalar × Scalar)
  | P :: ps, a :: ra, b :: rb => (P, a, b) :: zip3 ps ra rb
  | _, _, _ => []

/-- The transcript chunks appended by the loop of `ring_verify`
(src/pyring/one_time.py, lines 174-176). -/
def verifyChunks (I : Point) : List (Point × Scalar × Scalar) → Bytes
  | [] => []
  | (P, ri, ci) :: rest =>
    pointEncode (pmul ri G + pmul ci P) ++
      pointEncode (pmul ri (hashToPoint P) + pmul ci I) ++ verifyChunks I rest

/-- `ring_verify` (src/pyring/one_time.py, lines 160-179): iterate over
`zip(public_keys, r, c)` and accept iff `hash_to_scalar(buffer) - reduce(add, c) == 0`;
the empty `reduce` (empty `c`) raises, hence `none`. -/
def ringVerify (m : Bytes) (sig : RingSignature) : Option Bool :=
  match sumList sig.c with
  | none => none
  | some tot =>
    some (decide (hashToScalar
      (m ++ verifyChunks sig.key_image (zip3 sig.public_keys sig.r sig.c)) - tot = 0))

/-- The per-member encryption loop of `within_ring_sign` (src/pyring/one_time.py,
lines 150-157): for each ring key `P` one fresh scalar `ρ = rand k` is drawn, giving
`public = ρ·G` and `enc = ρ·P + I`. -/
def encPair (rand : ℕ → Scalar) (I : Point) : ℕ → List Point → List (Point × Point)
  | _, [] => []
  | k, P :: rest => (pmul (rand k) G, pmul (rand k) P + I) :: encPair rand I (k + 1) rest

/-- `within_ring_sign` (src/pyring/one_time.py, lines 145-158).  On every success path
`sign` has consumed exactly `2·n − 1` positions of the randomness stream, so the
encryption loop reads the stream from position `2·n − 1` on. -/
def withinRingSign (m : Bytes) (public_keys : List Point) (x : Scalar) (s : ℕ)
    (rand : ℕ → Scalar) : Option WithinRingSignature :=
  match signT m public_keys x s rand with
  | none => none
  | some (pk, I, c, r) =>
    some ⟨pk, (encPair rand I (2 * pk.length - 1) pk).map Prod.fst,
      (encPair rand I (2 * pk.length - 1) pk).map Prod.snd, c, r⟩

/-- Python `list.index(t)`: the first position holding `t`; `none` models the
`ValueError` raised when `t` is absent. -/
def listIndex (t : Point) : List Point → Option ℕ
  | [] => none
  | P :: rest => if P = t then some 0 else (listIndex t rest).map (· + 1)

/-- `within_ring_verify` (src/pyring/one_time.py, lines 181-188): locate the caller's
public key `x·G` in the ring, decrypt the key image at that index as
`enc_points[j] − x·public_points[j]`, and run `ring_verify` with it. -/
def withinRingVerify (m : Bytes) (sig : WithinRingSignature) (x : Scalar) :
    Option Bool :=
  match listIndex (pmul x G) sig.public_keys with
  | none => none
  | some j =>
    match sig.public_points.get? j, sig.enc_points.get? j with
    | some pp, some ep =>
      ringVerify m ⟨sig.public_keys, ep - pmul x pp, sig.c, sig.r⟩
    | _, _ => none

/-- Stated from the spec (§3, §4.8): the verification transcript — the message followed,
in ring order, by the encodings of `r[i]·G + c[i]·P[i]` and
`r[i]·HashToPoint(P[i]) + c[i]·I` for every index `i` of the ring.  This definition
follows the spec's words; claim C6 compares it with the implementation. -/
def specTranscript (m : Bytes) (sig : RingSignature) : Bytes :=
  m ++ ((List.range sig.public_keys.length).map (fun i =>
    pointEncode (pmul (sig.r.getD i 0) G + pmul (sig.c.getD i 0) (sig.public_keys.getD i G)) ++
    pointEncode (pmul (sig.r.getD i 0) (hashToPoint (sig.public_keys.getD i G)) +
      pmul (sig.c.getD i 0) sig.key_image))).flatten

/-- ASN.1 values as the serializer uses them (src/pyring/serialize.py): object
identifiers, octet strings and sequences.  The DER byte layer and the PEM/base64 armor
are the pyasn1 and base64 libraries (external per the spec, §1/§6) and round-trip;
signatures are modelled at the ASN.1 value level. -/
inductive Asn1 where
  | oid : List ℕ → Asn1
  | oct : Bytes → Asn1
  | seqOf : List Asn1 → Asn1

/-- `_OBJECT_ID` (src/pyring/serialize.py): `(2, 25)` followed by the 16 bytes of the
UUID `3b5e61af-c4ec-496e-95e9-4b64bccdc809`. -/
def OBJECT_ID : List ℕ :=
  [2, 25, 0x3b, 0x5e, 0x61, 0xaf, 0xc4, 0xec, 0x49, 0x6e,
    0x95, 0xe9, 0x4b, 0x64, 0xbc, 0xcd, 0xc8, 0x09]

/-- Modelled from the spec (§3): the canonical 32-byte little-endian scalar encoding,
abstracted to the numeric value. -/
def scalarEncode (a : Scalar) : Bytes := [a.val]

/-- Modelled from the spec (§4.1): scalar decoding rejects non-canonical encodings
(numeric value ≥ ℓ). -/
def scalarDecode (b : Bytes) : Option Scalar :=
  match b with
  | [v] => if v < L then some (v : Scalar) else none
  | _ => none

/-- Modelled from the spec (§4.2): point decoding rejects invalid encodings. -/
def pointDecode (b : Bytes) : Option Point :=
  match b with
  | [v, t] => if v < L ∧ t < 8 then some ((v : ZMod L), (t : ZMod 8)) else none
  | _ => none

/-- `export_ring_pem` (src/pyring/serialize.py, lines 70-86): DER fields in the order
of `RingSignatureSchema`: algorithm, key_image, public_keys, c, r. -/
def exportRingPem (sig : RingSignature) : Asn1 :=
  .seqOf [.oid OBJECT_ID, .oct (pointEncode sig.key_image),
    .seqOf (sig.public_keys.map (fun P => .oct (pointEncode P))),
    .seqOf (sig.c.map (fun a => .oct (scalarEncode a))),
    .seqOf (sig.r.map (fun a => .oct (scalarEncode a)))]

/-- `export_within_ring_pem` (src/pyring/serialize.py, lines 89-106): DER fields in
the order of `WithinRingSignatureSchema`: algorithm, public_points, enc_points,
public_keys, c, r. -/
def exportWithinRingPem (sig : WithinRingSignature) : Asn1 :=
  .seqOf [.oid OBJECT_ID,
    .seqOf (sig.public_points.map (fun P => .oct (pointEncode P))),
    .seqOf (sig.enc_points.map (fun P => .oct (pointEncode P))),
    .seqOf (sig.public_keys.map (fun P => .oct (pointEncode P))),
    .seqOf (sig.c.map (fun a => .oct (scalarEncode a))),
    .seqOf (sig.r.map (fun a => .oct (scalarEncode a)))]

/-- Decode a list of ASN.1 octet strings with the given element decoder; anything
that is not a decodable octet string is an error. -/
def decodeOcts {α : Type} (d : Bytes → Option α) : List Asn1 → Option (List α)
  | [] => some []
  | .oct b :: rest =>
    match d b, decodeOcts d rest with
    | some a, some l => some (a :: l)
    | _, _ => none
  | _ :: _ => none

/-- `import_pem` (src/pyring/serialize.py, lines 135-160): the module binds the name
`import_pem` twice and the second definition shadows the first, so the surviving
importer is the within-ring variant.  It reads six fields — algorithm, then five
sequences decoded as public_points, enc_points, public_keys, c, r.  Any parse failure
(wrong shape, wrong object identifier, undecodable element) raises, hence `none`. -/
def importPem (a : Asn1) : Option WithinRingSignature :=
  match a with
  | .seqOf [.oid o, .seqOf f1, .seqOf f2, .seqOf f3, .seqOf f4, .seqOf f5] =>
    if o = OBJECT_ID then
      match decodeOcts pointDecode f1, decodeOcts pointDecode f2,
        decodeOcts pointDecode f3, decodeOcts scalarDecode f4,
        decodeOcts scalarDecode f5 with
      | some pp, some ep, some pk, some cs, some rs => some ⟨pk, pp, ep, cs, rs⟩
      | _, _, _, _, _ => none
    else none
  | _ => none

/-- A fixed randomness stream used for the concrete instances. -/
def rand0 : ℕ → Scalar := fun k => ((k + 2 : ℕ) : Scalar)

/-- The singleton ring `[2·G]` (a valid ring for the private scalar 2 at index 0). -/
def pks1 : List Point := [pmul 2 G]

/-- A concrete ring of two keys, for the private scalars 2 (index 0) and 3 (index 1). -/
def pks2 : List Point := [pmul 2 G, pmul 3 G]

/-- A second concrete ring of two keys, signer scalar 2 at index 1. -/
def pksB : List Point := [pmul 5 G, pmul 2 G]

/-- The concrete ring signature produced over `pks2` by the signer with scalar 2. -/
def sigA : RingSignature :=
  match ringSign [] pks2 2 0 rand0 with
  | some sg => sg
  | none => ⟨[], G, [], []⟩

/-- A concrete ring signature over a different message and ring with the same scalar 2. -/
def sigB : RingSignature :=
  match ringSign [9] pksB 2 1 rand0 with
  | some sg => sg
  | none => ⟨[], G, [], []⟩

/-- `sigA` with an extra public key appended: its vectors disagree in length. -/
def sigAbad : RingSignature :=
  ⟨sigA.public_keys ++ [G], sigA.key_image, sigA.c, sigA.r⟩

/-- The concrete within-ring signature produced over `pks2` by the signer with scalar 2. -/
def wsigA : WithinRingSignature :=
  match withinRingSign [] pks2 2 0 rand0 with
  | some sg => sg
  | none => ⟨[], [], [], [], []⟩

/-- A small concrete ring signature for the serialization round trip. -/
def rsig0 : RingSignature := ⟨[G], G, [1], [1]⟩

/-! ### Helper lemmas -/

lemma hashToPoint_snd (P : Point) : (hashToPoint P).2 = 0 := by
  show ((8 : Scalar).val : ZMod 8) * 1 = 0
  decide

lemma pmul_linear (a b x : Scalar) (H : Point) (h : H.2 = 0) :
    pmul (a - b * x) H + pmul b (pmul x H) = pmul a H := by
  refine Prod.ext ?_ ?_
  · show (a - b * x) * H.1 + b * (x * H.1) = a * H.1
    ring
  · show ((a - b * x).val : ZMod 8) * H.2 +
      (b.val : ZMod 8) * ((x.val : ZMod 8) * H.2) = (a.val : ZMod 8) * H.2
    rw [h]
    simp

lemma pmul_linear_keyImage (a b x : Scalar) :
    pmul (a - b * x) (hashToPoint (pmul x G)) + pmul b (keyImage x) =
      pmul a (hashToPoint (pmul x G)) :=
  pmul_linear a b x (hashToPoint (pmul x G)) (hashToPoint_snd _)

lemma pmul_pmul_comm (a b : Scalar) (P : Point) :
    pmul a (pmul b P) = pmul b (pmul a P) := by
  refine Prod.ext ?_ ?_
  · show a * (b * P.1) = b * (a * P.1)
    ring
  · show (a.val : ZMod 8) * ((b.val : ZMod 8) * P.2) =
      (b.val : ZMod 8) * ((a.val : ZMod 8) * P.2)
    ring

lemma foldl_add_eq_sum : ∀ (t : List Scalar) (a : Scalar), t.foldl (· + ·) a = a + t.sum
  | [], a => by simp
  | b :: t, a => by
    simp only [List.foldl_cons, List.sum_cons, foldl_add_eq_sum t (a + b)]
    ring

lemma sumList_eq_sum (l : List Scalar) (h : l ≠ []) : sumList l = some l.sum := by
  cases l with
  | nil => exact absurd rfl h
  | cons a t => simp [sumList, foldl_add_eq_sum, List.sum_cons]

lemma insertAt_sum (a : Scalar) :
    ∀ (n : ℕ) (l : List Scalar), (insertAt a n l).sum = a + l.sum
  | 0, l => by simp [insertAt]
  | n + 1, [] => by simp [insertAt]
  | n + 1, b :: l => by
    simp only [insertAt, List.sum_cons, insertAt_sum a n l]
    ring

lemma insertAt_get? (a : Scalar) :
    ∀ (n : ℕ) (l : List Scalar), n ≤ l.length → (insertAt a n l).get? n = some a
  | 0, _, _ => rfl
  | n + 1, [], h => by simp at h
  | n + 1, b :: l, h => by
    simp only [insertAt, List.get?_cons_succ]
    exact insertAt_get? a n l (by simp at h; omega)

lemma insertAt_ne_nil (a : Scalar) (n : ℕ) (l : List Scalar) : insertAt a n l ≠ [] := by
  cases n <;> cases l <;> simp [insertAt]

lemma zip3_cons (P : Point) (ps : List Point) (a b : Scalar) (ra rb : List Scalar) :
    zip3 (P :: ps) (a :: ra) (b :: rb) = (P, a, b) :: zip3 ps ra rb := rfl

lemma zip3_nil_mid (ps : List Point) (rb : List Scalar) : zip3 ps [] rb = [] := by
  cases ps <;> rfl

lemma zip3_nil_right (ps : List Point) (ra : List Scalar) : zip3 ps ra [] = [] := by
  cases ps <;> cases ra <;> rfl

lemma listIndex_get? (t : Point) :
    ∀ (l : List Point) (j : ℕ), listIndex t l = some j → l.get? j = some t
  | [], j, h => by simp [listIndex] at h
  | P :: rest, j, h => by
    by_cases hP : P = t
    · simp only [listIndex, if_pos hP] at h
      injection h with h2
      subst h2
      simp [hP]
    · simp only [listIndex, if_neg hP, Option.map_eq_some'] at h
      obtain ⟨j2, hj2, rfl⟩ := h
      simp only [List.get?_cons_succ]
      exact listIndex_get? t rest j2 hj2

lemma listIndex_of_mem (t : Point) :
    ∀ (l : List Point), t ∈ l → ∃ j, listIndex t l = some j
  | [], h => absurd h (List.not_mem_nil t)
  | P :: rest, h => by
    by_cases hP : P = t
    · exact ⟨0, by simp [listIndex, hP]⟩
    · have hr : t ∈ rest := by
        rcases List.mem_cons.mp h with h1 | h1
        · exact absurd h1.symm hP
        · exact h1
      obtain ⟨j, hj⟩ := listIndex_of_mem t rest hr
      exact ⟨j + 1, by simp [listIndex, hP, hj]⟩

lemma encPair_get? (rand : ℕ → Scalar) (I : Point) :
    ∀ (l : List Point) (k j : ℕ), (encPair rand I k l).get? j =
      (l.get? j).map (fun P => (pmul (rand (k + j)) G, pmul (rand (k + j)) P + I))
  | [], k, j => by simp [encPair]
  | P :: rest, k, 0 => by simp [encPair]
  | P :: rest, k, j + 1 => by
    have hkj : k + 1 + j = k + (j + 1) := by omega
    simp only [encPair, List.get?_cons_succ, encPair_get? rand I rest (k + 1) j, hkj]

/-! ### The signing loop versus the verification loop -/

lemma signList_cons_pos (rand : ℕ → Scalar) (I : Point) (i k : ℕ) (P : Point)
    (rest : List Point) :
    signList rand i I i k (P :: rest) =
      ⟨pointEncode (pmul (rand k) G) ++ pointEncode (pmul (rand k) (hashToPoint P)) ++
          (signList rand i I (i + 1) (k + 1) rest).chunks,
        (signList rand i I (i + 1) (k + 1) rest).c,
        (signList rand i I (i + 1) (k + 1) rest).r,
        some (rand k)⟩ := by
  simp [signList]

lemma signList_cons_neg (rand : ℕ → Scalar) (s : ℕ) (I : Point) (i k : ℕ) (P : Point)
    (rest : List Point) (h : ¬ i = s) :
    signList rand s I i k (P :: rest) =
      ⟨pointEncode (pmul (rand k) G + pmul (rand (k + 1)) P) ++
          pointEncode (pmul (rand k) (hashToPoint P) + pmul (rand (k + 1)) I) ++
          (signList rand s I (i + 1) (k + 2) rest).chunks,
        rand (k + 1) :: (signList rand s I (i + 1) (k + 2) rest).c,
        rand k :: (signList rand s I (i + 1) (k + 2) rest).r,
        (signList rand s I (i + 1) (k + 2) rest).qs⟩ := by
  simp [signList, h]

lemma signList_post (rand : ℕ → Scalar) (s : ℕ) (I : Point) :
    ∀ (ps : List Point) (i k : ℕ), s < i →
      (signList rand s I i k ps).qs = none ∧
      (signList rand s I i k ps).c.length = ps.length ∧
      (signList rand s I i k ps).r.length = ps.length ∧
      verifyChunks I (zip3 ps (signList rand s I i k ps).r (signList rand s I i k ps).c) =
        (signList rand s I i k ps).chunks
  | [], _, _, _ => ⟨rfl, rfl, rfl, rfl⟩
  | P :: rest, i, k, h => by
    have hne : ¬ i = s := by omega
    obtain ⟨h1, h2, h3, h4⟩ := signList_post rand s I rest (i + 1) (k + 2) (by omega)
    rw [signList_cons_neg rand s I i k P rest hne]
    refine ⟨h1, by simp [h2], by simp [h3], ?_⟩
    simp only [zip3_cons, verifyChunks]
    rw [h4]

lemma signList_main (rand : ℕ → Scalar) (x : Scalar) (s : ℕ) :
    ∀ (ps : List Point) (i k : ℕ), i ≤ s → s - i < ps.length →
      ps.get? (s - i) = some (pmul x G) →
      ∃ q, (signList rand s (keyImage x) i k ps).qs = some q ∧
        (signList rand s (keyImage x) i k ps).c.length + 1 = ps.length ∧
        (signList rand s (keyImage x) i k ps).r.length + 1 = ps.length ∧
        ∀ cv : Scalar,
          verifyChunks (keyImage x)
            (zip3 ps
              (insertAt (q - cv * x) (s - i) (signList rand s (keyImage x) i k ps).r)
              (insertAt cv (s - i) (signList rand s (keyImage x) i k ps).c)) =
            (signList rand s (keyImage x) i k ps).chunks
  | [], i, k, h1, h2, h3 => by simp at h2
  | P :: rest, i, k, h1, h2, h3 => by
    by_cases hi : i = s
    · subst hi
      rw [Nat.sub_self] at h3
      have hP : P = pmul x G := by simpa using h3
      obtain ⟨hq1, hc2, hr2, hvc⟩ :=
        signList_post rand i (keyImage x) rest (i + 1) (k + 1) (by omega)
      rw [signList_cons_pos rand (keyImage x) i k P rest]
      refine ⟨rand k, rfl, by simp [hc2], by simp [hr2], ?_⟩
      intro cv
      rw [Nat.sub_self]
      simp only [insertAt, zip3_cons, verifyChunks]
      rw [hP, pmul_linear (rand k) cv x G rfl, pmul_linear_keyImage (rand k) cv x, hvc]
    · have hd : s - i = (s - (i + 1)) + 1 := by omega
      have h2a : s - (i + 1) < rest.length := by
        simp only [List.length_cons] at h2
        omega
      have h3a : rest.get? (s - (i + 1)) = some (pmul x G) := by
        rw [hd] at h3
        simpa using h3
      obtain ⟨q, hqs, hcl, hrl, hch⟩ :=
        signList_main rand x s rest (i + 1) (k + 2) (by omega) h2a h3a
      rw [signList_cons_neg rand s (keyImage x) i k P rest hi]
      refine ⟨q, hqs, ?_, ?_, ?_⟩
      · simp only [List.length_cons]
        omega
      · simp only [List.length_cons]
        omega
      · intro cv
        rw [hd]
        simp only [insertAt, zip3_cons, verifyChunks]
        rw [hch cv]

/-! ### Correctness of `sign` against `ring_verify` -/

lemma signT_eq_some (m : Bytes) (pks : List Point) (x : Scalar) (s : ℕ)
    (rand : ℕ → Scalar) (tot q cS : Scalar)
    (h1 : sumList (signList rand s (keyImage x) 0 0 pks).c = some tot)
    (h2 : (signList rand s (keyImage x) 0 0 pks).qs = some q)
    (h3 : (insertAt (hashToScalar (m ++ (signList rand s (keyImage x) 0 0 pks).chunks) - tot)
        s (signList rand s (keyImage x) 0 0 pks).c).get? s = some cS) :
    signT m pks x s rand = some (pks, keyImage x,
      insertAt (hashToScalar (m ++ (signList rand s (keyImage x) 0 0 pks).chunks) - tot)
        s (signList rand s (keyImage x) 0 0 pks).c,
      insertAt (q - cS * x) s (signList rand s (keyImage x) 0 0 pks).r) := by
  simp only [signT, h1, h2, h3]

lemma signT_correct (m : Bytes) (pks : List Point) (x : Scalar) (s : ℕ)
    (rand : ℕ → Scalar) (hn : 2 ≤ pks.length) (hs : s < pks.length)
    (hg : pks.get? s = some (pmul x G)) :
    ∃ cs rs, signT m pks x s rand = some (pks, keyImage x, cs, rs) ∧
      ringVerify m ⟨pks, keyImage x, cs, rs⟩ = some true := by
  obtain ⟨q, hqs, hcl, hrl, hch⟩ :=
    signList_main rand x s pks 0 0 (Nat.zero_le s) (by simpa using hs) (by simpa using hg)
  simp only [Nat.sub_zero] at hch
  have hcne : (signList rand s (keyImage x) 0 0 pks).c ≠ [] := by
    intro hnil
    rw [hnil] at hcl
    simp only [List.length_nil] at hcl
    omega
  have hsum := sumList_eq_sum _ hcne
  have hsle : s ≤ (signList rand s (keyImage x) 0 0 pks).c.length := by omega
  have hget := insertAt_get?
    (hashToScalar (m ++ (signList rand s (keyImage x) 0 0 pks).chunks) -
      (signList rand s (keyImage x) 0 0 pks).c.sum) s _ hsle
  refine ⟨_, _, signT_eq_some m pks x s rand _ q _ hsum hqs hget, ?_⟩
  have hcsne := insertAt_ne_nil
    (hashToScalar (m ++ (signList rand s (keyImage x) 0 0 pks).chunks) -
      (signList rand s (keyImage x) 0 0 pks).c.sum) s
    (signList rand s (keyImage x) 0 0 pks).c
  simp only [ringVerify, sumList_eq_sum _ hcsne]
  rw [hch (hashToScalar (m ++ (signList rand s (keyImage x) 0 0 pks).chunks) -
      (signList rand s (keyImage x) 0 0 pks).c.sum)]
  rw [insertAt_sum, sub_add_cancel, sub_self]
  simp

/-! ### Shape of the emitted signatures -/

lemma signT_shape (m : Bytes) (pks : List Point) (x : Scalar) (s : ℕ)
    (rand : ℕ → Scalar) (out : List Point × Point × List Scalar × List Scalar)
    (h : signT m pks x s rand = some out) : out.1 = pks ∧ out.2.1 = keyImage x := by
  simp only [signT] at h
  split at h
  · split at h
    · have h2 := Option.some.inj h
      rw [← h2]
      exact ⟨rfl, rfl⟩
    · exact absurd h (by simp)
  · exact absurd h (by simp)

lemma withinRingSign_eq_some (m : Bytes) (pks : List Point) (x : Scalar) (s : ℕ)
    (rand : ℕ → Scalar) (sig : WithinRingSignature)
    (h : withinRingSign m pks x s rand = some sig) :
    ∃ cs rs, signT m pks x s rand = some (pks, keyImage x, cs, rs) ∧
      sig = ⟨pks,
        (encPair rand (keyImage x) (2 * pks.length - 1) pks).map Prod.fst,
        (encPair rand (keyImage x) (2 * pks.length - 1) pks).map Prod.snd, cs, rs⟩ := by
  unfold withinRingSign at h
  split at h
  · exact absurd h (by simp)
  · next pk I c r heq =>
    obtain ⟨e1, e2⟩ := signT_shape m pks x s rand (pk, I, c, r) heq
    simp only at e1 e2
    subst e1
    subst e2
    refine ⟨c, r, heq, ?_⟩
    have h3 := Option.some.inj h
    rw [← h3]

/-! ### Within-ring verification by an arbitrary ring member -/

lemma withinVerify_member (m : Bytes) (pks : List Point) (x xm : Scalar) (s : ℕ)
    (rand : ℕ → Scalar) (hn : 2 ≤ pks.length) (hs : s < pks.length)
    (hg : pks.get? s = some (pmul x G)) (hm : pmul xm G ∈ pks) :
    ∃ sig, withinRingSign m pks x s rand = some sig ∧
      withinRingVerify m sig xm = some true := by
  obtain ⟨cs, rs, hsig, hver⟩ := signT_correct m pks x s rand hn hs hg
  refine ⟨⟨pks, (encPair rand (keyImage x) (2 * pks.length - 1) pks).map Prod.fst,
    (encPair rand (keyImage x) (2 * pks.length - 1) pks).map Prod.snd, cs, rs⟩, ?_, ?_⟩
  · simp only [withinRingSign, hsig]
  · obtain ⟨j, hj⟩ := listIndex_of_mem (pmul xm G) pks hm
    have hjget : pks.get? j = some (pmul xm G) := listIndex_get? _ pks j hj
    have hpp : ((encPair rand (keyImage x) (2 * pks.length - 1) pks).map Prod.fst).get? j =
        some (pmul (rand (2 * pks.length - 1 + j)) G) := by
      rw [List.get?_map, encPair_get?, hjget]
      rfl
    have hep : ((encPair rand (keyImage x) (2 * pks.length - 1) pks).map Prod.snd).get? j =
        some (pmul (rand (2 * pks.length - 1 + j)) (pmul xm G) + keyImage x) := by
      rw [List.get?_map, encPair_get?, hjget]
      rfl
    simp only [withinRingVerify, hj, hpp, hep]
    rw [pmul_pmul_comm (rand (2 * pks.length - 1 + j)) xm G, add_sub_cancel_left]
    exact hver

/-! ### The verification transcript, indexed as the spec words it -/

lemma zip3_nil (ra rb : List Scalar) : zip3 [] ra rb = [] := rfl

lemma verifyChunks_eq_range (I : Point) :
    ∀ (ps : List Point) (ra rc : List Scalar), ra.length = ps.length →
      rc.length = ps.length →
      verifyChunks I (zip3 ps ra rc) =
        ((List.range ps.length).map (fun i =>
          pointEncode (pmul (ra.getD i 0) G + pmul (rc.getD i 0) (ps.getD i G)) ++
          pointEncode (pmul (ra.getD i 0) (hashToPoint (ps.getD i G)) +
            pmul (rc.getD i 0) I))).flatten
  | [], ra, rc, _, _ => by simp [verifyChunks, zip3_nil]
  | P :: ps, ra, rc, h1, h2 => by
    cases ra with
    | nil => simp at h1
    | cons a ra =>
      cases rc with
      | nil => simp at h2
      | cons b rc =>
        have h1a : ra.length = ps.length := by simpa using h1
        have h2a : rc.length = ps.length := by simpa using h2
        simp only [zip3_cons, verifyChunks, List.length_cons, List.range_succ_eq_map,
          List.map_cons, List.flatten_cons, List.map_map, Function.comp_def,
          List.getD_cons_zero, List.getD_cons_succ]
        rw [verifyChunks_eq_range I ps ra rc h1a h2a]

/-! ### Truncation behaviour of the verification zip -/

lemma zip3_append (ext : List Point) :
    ∀ (ps : List Point) (ra rc : List Scalar), ra.length ≤ ps.length →
      rc.length ≤ ps.length → zip3 (ps ++ ext) ra rc = zip3 ps ra rc
  | _, [], _, _, _ => by rw [zip3_nil_mid, zip3_nil_mid]
  | [], _ :: _, _, h1, _ => by simp at h1
  | _ :: _, _ :: _, [], _, _ => by rw [zip3_nil_right, zip3_nil_right]
  | P :: ps, a :: ra, b :: rc, h1, h2 => by
    simp only [List.cons_append, zip3_cons]
    rw [zip3_append ext ps ra rc (by simpa using h1) (by simpa using h2)]

/-! ### Serialization round trips -/

lemma pointDecode_encode (P : Point) : pointDecode (pointEncode P) = some P := by
  simp only [pointDecode, pointEncode]
  rw [if_pos ⟨ZMod.val_lt P.1, ZMod.val_lt P.2⟩,
    ZMod.natCast_rightInverse P.1, ZMod.natCast_rightInverse P.2]

lemma scalarDecode_encode (a : Scalar) : scalarDecode (scalarEncode a) = some a := by
  simp only [scalarDecode, scalarEncode]
  rw [if_pos (ZMod.val_lt a), ZMod.natCast_rightInverse a]

lemma decodeOcts_map_encode {α : Type} (e : α → Bytes) (d : Bytes → Option α)
    (hd : ∀ a, d (e a) = some a) :
    ∀ l : List α, decodeOcts d (l.map (fun a => Asn1.oct (e a))) = some l
  | [] => rfl
  | a :: l => by
    simp only [List.map_cons, decodeOcts, hd a, decodeOcts_map_encode e d hd l]

lemma ringSign_shape (m : Bytes) (pks : List Point) (x : Scalar) (s : ℕ)
    (rand : ℕ → Scalar) (sig : RingSignature) (h : ringSign m pks x s rand = some sig) :
    sig.public_keys = pks ∧ sig.key_image = keyImage x := by
  unfold ringSign at h
  split at h
  · next pk I c r heq =>
    obtain ⟨e1, e2⟩ := signT_shape m pks x s rand (pk, I, c, r) heq
    simp only at e1 e2
    have h3 := Option.some.inj h
    rw [← h3]
    exact ⟨e1, e2⟩
  · exact absurd h (by simp)

/-! ### The claims -/

/-- C1 (amended: the ring must have at least two members — at `n = 1` the source's
`functools.reduce` over the empty list of non-signer `c` values raises, see the
counterexample).  For every message, ring of size `n ≥ 2`, scalar `x` and index
`s < n` with `ring[s] = x·G`, and every randomness stream, signing succeeds and
`ring_verify` accepts the produced signature. -/
theorem c1_sign_then_verify (m : Bytes) (pks : List Point) (x : Scalar) (s : ℕ)
    (rand : ℕ → Scalar) (hn : 2 ≤ pks.length) (hs : s < pks.length)
    (hg : pks.get? s = some (pmul x G)) :
    ∃ sig, ringSign m pks x s rand = some sig ∧ ringVerify m sig = some true := by
  obtain ⟨cs, rs, hsig, hver⟩ := signT_correct m pks x s rand hn hs hg
  exact ⟨⟨pks, keyImage x, cs, rs⟩, by simp only [ringSign, hsig], hver⟩

/-- C1, witness: the concrete two-element ring `pks2` with signer scalar 2 at
index 0. -/
theorem c1_witness :
    2 ≤ pks2.length ∧ 0 < pks2.length ∧ pks2.get? 0 = some (pmul 2 G) ∧
      ∃ sig, ringSign [] pks2 2 0 rand0 = some sig ∧ ringVerify [] sig = some true :=
  ⟨by decide, by decide, by decide,
    c1_sign_then_verify [] pks2 2 0 rand0 (by decide) (by decide) (by decide)⟩

/-- C1, counterexample: on the valid singleton ring `[2·G]` with `x = 2`, `s = 0`
(so `n ≥ 1` and `ring[s] = x·G` hold), `sign` does not succeed — the claim as
stated, which asks for success at every `n ≥ 1`, fails. -/
theorem c1_counterexample :
    pks1.get? 0 = some (pmul 2 G) ∧ pks1.length = 1 ∧
      ringSign [] pks1 2 0 rand0 = none := by decide

/-- C2 (amended): `within_ring_verify` returns `true` for every ring member, not
only the signer: the key image a member `x'` with `x'·G` in the ring recovers by
decryption is `enc_points[j] − x'·public_points[j] = (ρⱼ·Pⱼ + I) − x'·ρⱼ·G = I`,
the signer's key image itself, so the recovered ring signature verifies. -/
theorem c2_member_verifies (m : Bytes) (pks : List Point) (x xm : Scalar) (s : ℕ)
    (rand : ℕ → Scalar) (hn : 2 ≤ pks.length) (hs : s < pks.length)
    (hg : pks.get? s = some (pmul x G)) (hm : pmul xm G ∈ pks) :
    ∃ sig, withinRingSign m pks x s rand = some sig ∧
      withinRingVerify m sig xm = some true :=
  withinVerify_member m pks x xm s rand hn hs hg hm

/-- C2, witness: the non-signer member with scalar 3 of the concrete ring `pks2`
(signer scalar 2) verifies the within-ring signature successfully. -/
theorem c2_witness :
    2 ≤ pks2.length ∧ 0 < pks2.length ∧ pks2.get? 0 = some (pmul 2 G) ∧
      pmul 3 G ∈ pks2 ∧ (3 : Scalar) ≠ 2 ∧
      ∃ sig, withinRingSign [] pks2 2 0 rand0 = some sig ∧
        withinRingVerify [] sig 3 = some true :=
  ⟨by decide, by decide, by decide, by decide, by decide,
    c2_member_verifies [] pks2 2 3 0 rand0 (by decide) (by decide) (by decide) (by decide)⟩

/-- C2, counterexample: for the concrete within-ring signature over `pks2` produced
by the signer with scalar 2, the distinct ring member with scalar 3 gets
verification result `true` — the claim, which says non-signers get `false`, is
false. -/
theorem c2_counterexample :
    withinRingSign [] pks2 2 0 rand0 = some wsigA ∧ (3 : Scalar) ≠ 2 ∧
      pmul 3 G ∈ pks2 ∧ withinRingVerify [] wsigA 3 = some true := by decide

/-- C3 (amended: ring size at least 2 — at `n = 1` the underlying `sign` raises,
see the counterexample).  The signer can decrypt their own key image and the
resulting ring signature verifies. -/
theorem c3_signer_verifies (m : Bytes) (pks : List Point) (x : Scalar) (s : ℕ)
    (rand : ℕ → Scalar) (hn : 2 ≤ pks.length) (hs : s < pks.length)
    (hg : pks.get? s = some (pmul x G)) :
    ∃ sig, withinRingSign m pks x s rand = some sig ∧
      withinRingVerify m sig x = some true :=
  withinVerify_member m pks x x s rand hn hs hg (List.get?_mem hg)

/-- C3, witness: the signer with scalar 2 of the concrete ring `pks2`. -/
theorem c3_witness :
    2 ≤ pks2.length ∧ 0 < pks2.length ∧ pks2.get? 0 = some (pmul 2 G) ∧
      ∃ sig, withinRingSign [] pks2 2 0 rand0 = some sig ∧
        withinRingVerify [] sig 2 = some true :=
  ⟨by decide, by decide, by decide,
    c3_signer_verifies [] pks2 2 0 rand0 (by decide) (by decide) (by decide)⟩

/-- C3, counterexample: on the valid singleton ring `[2·G]` (`n = 1 ≥ 1`,
`ring[0] = x·G`), `within_ring_sign` raises, so the claimed verification at every
`n ≥ 1` fails. -/
theorem c3_counterexample :
    pks1.get? 0 = some (pmul 2 G) ∧ withinRingSign [] pks1 2 0 rand0 = none := by decide

/-- C4: the key image emitted by `sign` depends only on the private scalar `x`:
any two successful signatures with the same `x` — over any messages, rings,
indices and randomness — carry the same key image, namely
`PrivateKey(x).key_image() = x · HashToPoint(x·G)`. -/
theorem c4_key_image_links (m1 m2 : Bytes) (R R2 : List Point) (x : Scalar)
    (s s2 : ℕ) (rand1 rand2 : ℕ → Scalar) (sig1 sig2 : RingSignature)
    (h1 : ringSign m1 R x s rand1 = some sig1)
    (h2 : ringSign m2 R2 x s2 rand2 = some sig2) :
    sig1.key_image = sig2.key_image ∧ sig1.key_image = keyImage x ∧
      keyImage x = pmul x (hashToPoint (pmul x G)) := by
  obtain ⟨_, e1⟩ := ringSign_shape m1 R x s rand1 sig1 h1
  obtain ⟨_, e2⟩ := ringSign_shape m2 R2 x s2 rand2 sig2 h2
  exact ⟨by rw [e1, e2], e1, rfl⟩

/-- C4, witness: two concrete signatures with scalar 2 over different messages,
rings and signer indices share their key image. -/
theorem c4_witness :
    ringSign [] pks2 2 0 rand0 = some sigA ∧ ringSign [9] pksB 2 1 rand0 = some sigB ∧
      sigA.key_image = sigB.key_image ∧ sigA.key_image = keyImage 2 ∧
      keyImage 2 = pmul 2 (hashToPoint (pmul 2 G)) :=
  ⟨by decide, by decide,
    c4_key_image_links [] [9] pks2 pksB 2 0 1 rand0 rand0 sigA sigB (by decide) (by decide)⟩

/-- C5: the spec's singleton scenario (`x = 1`, ring `[G]`, empty message) must
succeed, but `sign` raises: with a single ring member there are no non-signer `c`
values and `functools.reduce(operator.add, c)` is applied to an empty list without
an initial value.  The input is valid — `ring[0] = 1·G` — yet no signature (and no
key image) is produced. -/
theorem c5_singleton_sign_fails :
    ([G] : List Point).get? 0 = some (pmul 1 G) ∧
      ringSign [] [G] 1 0 rand0 = none := by decide

/-- C6: `ring_verify(message, (public_keys, I, c, r))` returns `true` iff
`HashToScalar` of the transcript — the message followed in ring order by the
encodings of `r[i]·G + c[i]·P[i]` and `r[i]·HashToPoint(P[i]) + c[i]·I` — equals
the sum of all `c[i]` mod ℓ (stated for well-shaped signatures of ring size ≥ 1). -/
theorem c6_ring_verify_iff (m : Bytes) (sig : RingSignature)
    (h1 : sig.r.length = sig.public_keys.length)
    (h2 : sig.c.length = sig.public_keys.length)
    (h3 : 1 ≤ sig.public_keys.length) :
    ringVerify m sig = some true ↔
      hashToScalar (specTranscript m sig) = sig.c.sum := by
  have hcne : sig.c ≠ [] := by
    intro hnil
    rw [hnil] at h2
    simp only [List.length_nil] at h2
    omega
  simp only [ringVerify, sumList_eq_sum sig.c hcne, specTranscript,
    verifyChunks_eq_range sig.key_image sig.public_keys sig.r sig.c h1 h2,
    Option.some.injEq, decide_eq_true_eq, sub_eq_zero]

/-- C6, witness: the concrete signature `sigA`. -/
theorem c6_witness :
    sigA.r.length = sigA.public_keys.length ∧ sigA.c.length = sigA.public_keys.length ∧
      1 ≤ sigA.public_keys.length ∧
      (ringVerify [] sigA = some true ↔
        hashToScalar (specTranscript [] sigA) = sigA.c.sum) :=
  ⟨by decide, by decide, by decide,
    c6_ring_verify_iff [] sigA (by decide) (by decide) (by decide)⟩

/-- C7 (amended): the PEM round trip holds for within-ring signatures —
`import_pem(export_within_ring_pem(S)) == S` element-wise — but not for ring
signatures, because the module defines `import_pem` twice and the second
(within-ring) definition shadows the ring-signature importer (see the
counterexample). -/
theorem c7_within_round_trip (S : WithinRingSignature) :
    importPem (exportWithinRingPem S) = some S := by
  simp only [importPem, exportWithinRingPem, if_true]
  rw [decodeOcts_map_encode pointEncode pointDecode pointDecode_encode S.public_points,
    decodeOcts_map_encode pointEncode pointDecode pointDecode_encode S.enc_points,
    decodeOcts_map_encode pointEncode pointDecode pointDecode_encode S.public_keys,
    decodeOcts_map_encode scalarEncode scalarDecode scalarDecode_encode S.c,
    decodeOcts_map_encode scalarEncode scalarDecode scalarDecode_encode S.r]

/-- C7, witness: the round trip at the concrete within-ring signature. -/
theorem c7_witness : importPem (exportWithinRingPem wsigA) = some wsigA :=
  c7_within_round_trip wsigA

/-- C7, counterexample: importing the export of a concrete `RingSignature` fails
(the surviving `import_pem` expects the six-field within-ring layout), so
`import_pem(export_ring_pem(S)) == S` is false. -/
theorem c7_counterexample : importPem (exportRingPem rsig0) = none := by decide

/-- C8 (amended): `ring_verify` performs no length check: it iterates over
`zip(public_keys, r, c)`, which silently truncates to the shortest vector, and
sums all of `c`; in particular extra trailing public keys beyond the scalar
vectors are ignored and do not change the verification result, so a
length-mismatched signature can verify `true` rather than being rejected. -/
theorem c8_truncated_verification (m : Bytes) (pk ext : List Point) (I : Point)
    (c r : List Scalar) (h1 : c.length ≤ pk.length) (h2 : r.length ≤ pk.length) :
    ringVerify m ⟨pk ++ ext, I, c, r⟩ = ringVerify m ⟨pk, I, c, r⟩ := by
  simp only [ringVerify]
  rw [zip3_append ext pk r c h2 h1]

/-- C8, witness: appending an extra key to the concrete ring leaves the
verification result unchanged. -/
theorem c8_witness :
    sigA.c.length ≤ pks2.length ∧ sigA.r.length ≤ pks2.length ∧
      ringVerify [] ⟨pks2 ++ [G], sigA.key_image, sigA.c, sigA.r⟩ =
        ringVerify [] ⟨pks2, sigA.key_image, sigA.c, sigA.r⟩ :=
  ⟨by decide, by decide,
    c8_truncated_verification [] pks2 [G] sigA.key_image sigA.c sigA.r
      (by decide) (by decide)⟩

/-- C8, counterexample: a concrete signature whose `public_keys` has length 3 while
`c` and `r` have length 2 — a length mismatch — is accepted by `ring_verify`,
refuting the claim that mismatched signatures are rejected. -/
theorem c8_counterexample :
    sigAbad.public_keys.length = 3 ∧ sigAbad.c.length = 2 ∧ sigAbad.r.length = 2 ∧
      ringVerify [] sigAbad = some true := by decide

/-- C9: `sign` neither reorders nor modifies the ring — the `public_keys` vector
of any signature it emits is exactly the caller-supplied list (the embedding is
pure, so the input list itself is untouched). -/
theorem c9_public_keys_preserved (m : Bytes) (pks : List Point) (x : Scalar) (s : ℕ)
    (rand : ℕ → Scalar) (sig : RingSignature)
    (h : ringSign m pks x s rand = some sig) : sig.public_keys = pks :=
  (ringSign_shape m pks x s rand sig h).1

/-- C9, witness: the concrete signature over `pks2`. -/
theorem c9_witness :
    ringSign [] pks2 2 0 rand0 = some sigA ∧ sigA.public_keys = pks2 :=
  ⟨by decide, c9_public_keys_preserved [] pks2 2 0 rand0 sigA (by decide)⟩

/-- C10: in every signature produced by `within_ring_sign`, the encrypted key image
decrypts identically for every ring member: whenever `public_keys[j] = xⱼ·G`,
`enc_points[j] − xⱼ·public_points[j]` equals the signer's key image
`I = x·HashToPoint(x·G)`, since `enc_points[j] = ρⱼ·Pⱼ + I` and
`public_points[j] = ρⱼ·G`. -/
theorem c10_decrypts_for_all_members (m : Bytes) (pks : List Point) (x xj : Scalar)
    (s j : ℕ) (rand : ℕ → Scalar) (sig : WithinRingSignature) (pp ep : Point)
    (hsig : withinRingSign m pks x s rand = some sig)
    (hj : sig.public_keys.get? j = some (pmul xj G))
    (hpp : sig.public_points.get? j = some pp)
    (hep : sig.enc_points.get? j = some ep) :
    ep - pmul xj pp = keyImage x := by
  obtain ⟨cs, rs, hT, hshape⟩ := withinRingSign_eq_some m pks x s rand sig hsig
  subst hshape
  simp only at hj hpp hep
  rw [List.get?_map, encPair_get?, hj] at hpp hep
  simp only [Option.map_some'] at hpp hep
  have hppv := Option.some.inj hpp
  have hepv := Option.some.inj hep
  rw [← hppv, ← hepv, pmul_pmul_comm, add_sub_cancel_left]

/-- C10, witness: member index 1 (scalar 3) of the concrete within-ring signature
recovers the signer's key image `keyImage 2`. -/
theorem c10_witness :
    withinRingSign [] pks2 2 0 rand0 = some wsigA ∧
      wsigA.public_keys.get? 1 = some (pmul 3 G) ∧
      wsigA.public_points.get? 1 = some (wsigA.public_points.getD 1 G) ∧
      wsigA.enc_points.get? 1 = some (wsigA.enc_points.getD 1 G) ∧
      wsigA.enc_points.getD 1 G - pmul 3 (wsigA.public_points.getD 1 G) = keyImage 2 :=
  ⟨by decide, by decide, by decide, by decide,
    c10_decrypts_for_all_members [] pks2 2 3 0 1 rand0 wsigA
      (wsigA.public_points.getD 1 G) (wsigA.enc_points.getD 1 G)
      (by decide) (by decide) (by decide) (by decide)⟩

end Pyring
